import Mathlib

/-!
Verification development for the sreachMCP research-agent pipeline.

The definitions below are a shallow embedding of the Python sources under
src/research-agent/src: the orchestrator (agent/orchestrator.py), the
content fetcher (clients/content_fetcher.py), the LLM client
(clients/ollama_client.py), the RAG service (services/rag_service.py) and
the knowledge-graph service (services/graph_service.py).  Machine floats
are modelled as rationals, Python dicts of heterogeneous JSON values as an
inductive JSON type, and the stateful task table as explicit state passing.
-/

namespace ResearchAgent

/-- First-seen-order deduplication with an explicit accumulator of already
seen elements.  Embeds the Python idioms used in
ResearchOrchestrator.execute_research (list(dict.fromkeys(all_urls))) and
in ContentFetcher.batch_fetch (a seen set plus an append loop): the first
occurrence of each element is kept, later occurrences are dropped. -/
def dedupFS (seen : List String) : List String → List String
  | [] => []
  | x :: xs => if x ∈ seen then dedupFS seen xs else x :: dedupFS (x :: seen) xs

theorem mem_dedupFS {u : String} : ∀ {seen l : List String},
    u ∈ dedupFS seen l ↔ u ∈ l ∧ u ∉ seen := by
  intro seen l
  induction l generalizing seen with
  | nil => simp [dedupFS]
  | cons x xs ih =>
    by_cases hx : x ∈ seen
    · rw [dedupFS, if_pos hx, ih]
      constructor
      · rintro ⟨hu, hs⟩
        exact ⟨List.mem_cons_of_mem _ hu, hs⟩
      · rintro ⟨hu, hs⟩
        rcases List.mem_cons.mp hu with rfl | h
        · exact absurd hx hs
        · exact ⟨h, hs⟩
    · rw [dedupFS, if_neg hx]
      constructor
      · intro hmem
        rcases List.mem_cons.mp hmem with rfl | h
        · exact ⟨List.mem_cons_self u xs, hx⟩
        · obtain ⟨hu, hs⟩ := ih.mp h
          exact ⟨List.mem_cons_of_mem _ hu,
            fun hm => hs (List.mem_cons_of_mem _ hm)⟩
      · rintro ⟨hu, hs⟩
        by_cases hux : u = x
        · subst hux
          exact List.mem_cons_self u _
        · rcases List.mem_cons.mp hu with h | h
          · exact absurd h hux
          · refine List.mem_cons_of_mem _ (ih.mpr ⟨h, fun hm => ?_⟩)
            rcases List.mem_cons.mp hm with h2 | h2
            · exact hux h2
            · exact hs h2

theorem dedupFS_sublist : ∀ (seen l : List String), (dedupFS seen l).Sublist l := by
  intro seen l
  induction l generalizing seen with
  | nil => simp [dedupFS]
  | cons x xs ih =>
    by_cases hx : x ∈ seen
    · simp only [dedupFS, if_pos hx]
      exact (ih seen).cons x
    · simp only [dedupFS, if_neg hx]
      exact (ih (x :: seen)).cons₂ x

theorem nodup_dedupFS : ∀ (seen l : List String), (dedupFS seen l).Nodup := by
  intro seen l
  induction l generalizing seen with
  | nil => simp [dedupFS]
  | cons x xs ih =>
    by_cases hx : x ∈ seen
    · simpa only [dedupFS, if_pos hx] using ih seen
    · simp only [dedupFS, if_neg hx, List.nodup_cons]
      refine ⟨fun hmem => ?_, ih (x :: seen)⟩
      exact (mem_dedupFS.mp hmem).2 (List.mem_cons_self x seen)

/-- Elements of the deduplicated list appear in order of their first
occurrence in the original list. -/
theorem dedupFS_pairwise_indexOf : ∀ (seen l : List String),
    (dedupFS seen l).Pairwise (fun u v => l.indexOf u < l.indexOf v) := by
  intro seen l
  induction l generalizing seen with
  | nil => simp [dedupFS]
  | cons x xs ih =>
    by_cases hx : x ∈ seen
    · simp only [dedupFS, if_pos hx]
      refine ((ih seen).imp_of_mem ?_)
      intro u v hu hv huv
      have hux : u ≠ x := fun h => (mem_dedupFS.mp hu).2 (h ▸ hx)
      have hvx : v ≠ x := fun h => (mem_dedupFS.mp hv).2 (h ▸ hx)
      rw [List.indexOf_cons_ne _ (Ne.symm hux), List.indexOf_cons_ne _ (Ne.symm hvx)]
      exact Nat.succ_lt_succ huv
    · simp only [dedupFS, if_neg hx]
      refine List.Pairwise.cons ?_ ?_
      · intro v hv
        have hvmem := mem_dedupFS.mp hv
        have hvx : v ≠ x := fun h => hvmem.2 (h ▸ List.mem_cons_self x seen)
        rw [List.indexOf_cons_self, List.indexOf_cons_ne _ (Ne.symm hvx)]
        exact Nat.succ_pos _
      · refine ((ih (x :: seen)).imp_of_mem ?_)
        intro u v hu hv huv
        have hux : u ≠ x := fun h =>
          (mem_dedupFS.mp hu).2 (h ▸ List.mem_cons_self x seen)
        have hvx : v ≠ x := fun h =>
          (mem_dedupFS.mp hv).2 (h ▸ List.mem_cons_self x seen)
        rw [List.indexOf_cons_ne _ (Ne.symm hux), List.indexOf_cons_ne _ (Ne.symm hvx)]
        exact Nat.succ_lt_succ huv

/-- The URL merge of the search stage, from
ResearchOrchestrator.execute_research (orchestrator.py lines 156-162):
all URLs extracted from the per-strategy results are concatenated and then
deduplicated preserving first-seen order and truncated to max_sources:
unique_urls = list(dict.fromkeys(all_urls))[:max_sources]. -/
def uniqueUrls (allUrls : List String) (maxSources : Nat) : List String :=
  (dedupFS [] allUrls).take maxSources

/-- C5: after the search merge the URL list has no duplicates, preserves
first-seen order across strategies, and has length at most max_sources. -/
theorem search_merge_dedup_cap (allUrls : List String) (maxSources : Nat) :
    (uniqueUrls allUrls maxSources).Nodup ∧
    (uniqueUrls allUrls maxSources).length ≤ maxSources ∧
    (uniqueUrls allUrls maxSources).Sublist allUrls ∧
    (uniqueUrls allUrls maxSources).Pairwise
      (fun u v => allUrls.indexOf u < allUrls.indexOf v) := by
  refine ⟨?_, ?_, ?_, ?_⟩
  · exact (nodup_dedupFS [] allUrls).sublist (List.take_sublist _ _)
  · simp only [uniqueUrls]
    exact List.length_take_le _ _
  · exact (List.take_sublist _ _).trans (dedupFS_sublist [] allUrls)
  · exact (dedupFS_pairwise_indexOf [] allUrls).sublist (List.take_sublist _ _)

/-! ## Content fetching (clients/content_fetcher.py) -/

/-- A fetched/extracted content record, the dictionary shape produced by
ContentFetcher.extract_content and consumed downstream.  A missing
"error" key is modelled as the empty string, matching the truthiness
tests the Python code applies to it. -/
structure Content where
  url : String
  title : String
  text : String
  method : String
  error : String
  wordCount : Nat
deriving DecidableEq, Repr

/-- The failure record built by ContentFetcher.fetch_and_extract,
extract_content and batch_fetch when a URL cannot be processed. -/
def failedContent (url msg : String) : Content :=
  { url := url, title := "", text := "", method := "failed", error := msg,
    wordCount := 0 }

/-- The environment's behaviour for one URL, abstracting the network and
the extractors.  fetchFailed models fetch_url returning None (HTTP error,
guard rejection or network exception, all caught inside fetch_url);
extractFailed models the catch-all in extract_content with message
str(e); extracted carries the fields of a successful extraction; raised
models an exception surfacing from the per-URL task, observed by
asyncio.gather(..., return_exceptions=True) in batch_fetch. -/
inductive FetchOutcome where
  | fetchFailed
  | extractFailed (msg : String)
  | extracted (title text method : String) (wordCount : Nat)
  | raised (msg : String)
deriving DecidableEq, Repr

/-- ContentFetcher.fetch_and_extract: fetch the URL, then extract; both
failure modes produce the method="failed" record. -/
def fetch_and_extract (oracle : String → FetchOutcome) (url : String) : Content :=
  match oracle url with
  | .fetchFailed => failedContent url "Failed to fetch content"
  | .extractFailed msg => failedContent url msg
  | .extracted t x m w =>
      { url := url, title := t, text := x, method := m, error := "", wordCount := w }
  | .raised msg => failedContent url msg

/-- ContentFetcher.batch_fetch: deduplicate the URLs preserving order,
fan out fetch_and_extract, and convert any surfaced exception into a
failure record, so that the batch itself never fails. -/
def batch_fetch (oracle : String → FetchOutcome) (urls : List String) : List Content :=
  (dedupFS [] urls).map (fetch_and_extract oracle)

/-- An outcome that is not a successful extraction. -/
def FetchOutcome.isFailure : FetchOutcome → Prop
  | .extracted _ _ _ _ => False
  | _ => True

/-- C6: batch_fetch returns exactly one Content per distinct input URL,
in input order with duplicates collapsed at entry, and every per-URL
failure materializes as a record with method="failed", empty text and a
non-empty error (given that surfaced exception messages are non-empty,
as str(e) is for the exceptions raised here). -/
theorem batch_fetch_totality (oracle : String → FetchOutcome) (urls : List String)
    (hmsg : ∀ url m, oracle url = .extractFailed m ∨ oracle url = .raised m → m ≠ "") :
    (batch_fetch oracle urls).map Content.url = dedupFS [] urls ∧
    ((batch_fetch oracle urls).map Content.url).Nodup ∧
    (∀ u, u ∈ urls ↔ u ∈ (batch_fetch oracle urls).map Content.url) ∧
    (∀ c ∈ batch_fetch oracle urls, (oracle c.url).isFailure →
      c.method = "failed" ∧ c.text = "" ∧ c.error ≠ "") := by
  have hurl : ∀ u, (fetch_and_extract oracle u).url = u := by
    intro u
    cases h : oracle u <;> simp [fetch_and_extract, h, failedContent]
  have hmap : (batch_fetch oracle urls).map Content.url = dedupFS [] urls := by
    rw [batch_fetch, List.map_map]
    have : (Content.url ∘ fetch_and_extract oracle) = id := by
      funext u
      exact hurl u
    rw [this, List.map_id]
  refine ⟨hmap, ?_, ?_, ?_⟩
  · rw [hmap]
    exact nodup_dedupFS [] urls
  · intro u
    rw [hmap]
    constructor
    · intro hu
      exact mem_dedupFS.mpr ⟨hu, List.not_mem_nil u⟩
    · intro hu
      exact (mem_dedupFS.mp hu).1
  · intro c hc hfail
    obtain ⟨u, hu, hcu⟩ := List.mem_map.mp hc
    subst hcu
    rw [hurl u] at hfail
    cases h : oracle u with
    | fetchFailed =>
        simp [fetch_and_extract, h, failedContent]
    | extractFailed m =>
        have hm : m ≠ "" := hmsg u m (Or.inl h)
        simp [fetch_and_extract, h, failedContent, hm]
    | extracted t x mth w =>
        rw [h] at hfail
        exact absurd hfail (by simp [FetchOutcome.isFailure])
    | raised m =>
        have hm : m ≠ "" := hmsg u m (Or.inr h)
        simp [fetch_and_extract, h, failedContent, hm]

/-- A concrete environment for the batch-fetch witness: one URL
extracts successfully, every other URL fails to fetch. -/
def demoOracle : String → FetchOutcome := fun u =>
  if u = "https://a.example" then .extracted "Title" "body text" "trafilatura" 2
  else .fetchFailed

theorem batch_fetch_totality_witness :
    (batch_fetch demoOracle ["https://a.example", "https://b.example", "https://a.example"]).map
        Content.url
      = dedupFS [] ["https://a.example", "https://b.example", "https://a.example"] ∧
    ((batch_fetch demoOracle
        ["https://a.example", "https://b.example", "https://a.example"]).map Content.url).Nodup ∧
    (∀ u, u ∈ ["https://a.example", "https://b.example", "https://a.example"] ↔
      u ∈ (batch_fetch demoOracle
        ["https://a.example", "https://b.example", "https://a.example"]).map Content.url) ∧
    (∀ c ∈ batch_fetch demoOracle ["https://a.example", "https://b.example", "https://a.example"],
      (demoOracle c.url).isFailure →
      c.method = "failed" ∧ c.text = "" ∧ c.error ≠ "") := by
  refine batch_fetch_totality demoOracle _ ?_
  intro url m h
  rcases h with h | h <;>
  · rw [demoOracle] at h
    split at h <;> simp_all

/-! ## Task lifecycle (agent/orchestrator.py) -/

/-- ResearchStatus (orchestrator.py lines 22-32). -/
inductive RStatus where
  | pending
  | analyzing
  | searching
  | fetching
  | synthesizing
  | generating
  | completed
  | failed
  | cancelled
deriving DecidableEq, Repr

/-- The terminal statuses checked by ResearchOrchestrator.cancel_task. -/
def terminalStatus (s : RStatus) : Bool :=
  match s with
  | .completed => true
  | .failed => true
  | .cancelled => true
  | _ => false

/-- The in-memory task record, restricted to the fields the lifecycle
claims are about: tasks[task_id]["status"], ["progress"], ["results"]. -/
structure TaskState where
  status : RStatus
  progress : ℚ
  hasResults : Bool
deriving DecidableEq, Repr

/-- Mutations performed on the in-memory task record. update models
ResearchOrchestrator.update_task_status, which assigns status and
progress unconditionally (orchestrator.py lines 467-476); cancel models
ResearchOrchestrator.cancel_task, which sets CANCELLED only from a
non-terminal status (lines 524-531); storeResults models the final
assignment tasks[task_id]["results"] = results (line 392). -/
inductive TaskEvent where
  | update (s : RStatus) (p : ℚ)
  | cancel
  | storeResults
deriving DecidableEq, Repr

def stepTask (st : TaskState) : TaskEvent → TaskState
  | .update s p => { st with status := s, progress := p }
  | .cancel => if terminalStatus st.status then st else { st with status := .cancelled }
  | .storeResults => { st with hasResults := true }

def runTask (st : TaskState) (evs : List TaskEvent) : TaskState :=
  evs.foldl stepTask st

/-- The task record created at the top of execute_research. -/
def initTask : TaskState := { status := .pending, progress := 0, hasResults := false }

/-- The event sequence of a run of execute_research in which cancel_task
is invoked while the task is FETCHING: the pipeline itself never consults
the cancelled flag, so its subsequent update_task_status calls and the
final results assignment proceed unchanged. -/
def cancelMidFetchTrace : List TaskEvent :=
  [.update .analyzing 10, .update .searching 25, .update .fetching 50,
   .cancel,
   .update .synthesizing 70, .update .synthesizing 85,
   .update .completed 100, .storeResults]

/-- C1: the cancellation claim fails on the code.  In this concrete run
the cancel request is accepted while the task is in the non-terminal
FETCHING state (the status does become cancelled at that point), yet the
still-running pipeline later overwrites the status with COMPLETED and
stores a results record. -/
theorem cancelled_task_resurfaces_completed :
    terminalStatus (runTask initTask (cancelMidFetchTrace.take 3)).status = false ∧
    (runTask initTask (cancelMidFetchTrace.take 4)).status = .cancelled ∧
    (runTask initTask cancelMidFetchTrace).status = .completed ∧
    (runTask initTask cancelMidFetchTrace).hasResults = true := by
  decide

/-! ## Progress trace of a successful run (C2) -/

/-- Progress assigned in the per-source summarization loop
(orchestrator.py line 238): progress = 70 + (15 * i / len(prioritized_contents)). -/
def summarizeProgress (n i : Nat) : ℚ := 70 + 15 * i / n

/-- Progress reported by generate_detailed_analysis_multistep for section
i (ollama_client.py line 1043): progress = 75 + (10 * (i + 1) / len(section_titles)). -/
def detailProgress (m i : Nat) : ℚ := 75 + 10 * (i + 1) / m

/-- The sequence of (status, progress) values recorded on the in-memory
task over a fully successful run of execute_research with n prioritized
sources and m detailed-analysis sections: the initial record, the four
stage updates, the summarization loop, the synthesis update to 85, then
the detailed-analysis callbacks 75, per-section values, 90, and the
final completion update (orchestrator.py lines 98-367 together with
ollama_client.py lines 1031-1075). -/
def progressTrace (n m : Nat) : List (RStatus × ℚ) :=
  [(.pending, 0), (.analyzing, 10), (.searching, 25), (.fetching, 50), (.synthesizing, 70)]
  ++ (List.range n).map (fun i => (.synthesizing, summarizeProgress n i))
  ++ [(.synthesizing, 85), (.synthesizing, 75)]
  ++ (List.range m).map (fun i => (.synthesizing, detailProgress m i))
  ++ [(.synthesizing, 90), (.completed, 100)]

/-- C2 counterexample: with 2 sources and 4 detail sections the recorded
progress sequence is not non-decreasing: the synthesis update records 85
and the first detailed-analysis callback then records 75. -/
theorem progress_not_monotone :
    ¬ List.Chain' (· ≤ ·) ((progressTrace 2 4).map Prod.snd) := by
  norm_num [progressTrace, summarizeProgress, detailProgress, List.range_succ,
    List.chain'_cons]

theorem summarizeProgress_mono (n : Nat) {i j : Nat} (hij : i ≤ j) :
    summarizeProgress (n + 1) i ≤ summarizeProgress (n + 1) j := by
  have hij2 : (i : ℚ) ≤ (j : ℚ) := by exact_mod_cast hij
  unfold summarizeProgress
  gcongr

theorem summarizeProgress_lb (n i : Nat) : 70 ≤ summarizeProgress (n + 1) i := by
  unfold summarizeProgress
  push_cast
  have h : (0 : ℚ) ≤ 15 * i / ((n : ℚ) + 1) := by positivity
  linarith

theorem summarizeProgress_ub (n i : Nat) (hi : i < n + 1) :
    summarizeProgress (n + 1) i ≤ 85 := by
  unfold summarizeProgress
  push_cast
  have hpos : (0 : ℚ) < (n : ℚ) + 1 := by positivity
  have h : (15 : ℚ) * i / ((n : ℚ) + 1) ≤ 15 := by
    rw [div_le_iff₀ hpos]
    have hle : (i : ℚ) ≤ (n : ℚ) + 1 := by exact_mod_cast le_of_lt hi
    nlinarith
  linarith

theorem detailProgress_mono (m : Nat) {i j : Nat} (hij : i ≤ j) :
    detailProgress (m + 1) i ≤ detailProgress (m + 1) j := by
  have hij2 : (i : ℚ) + 1 ≤ (j : ℚ) + 1 := by
    have : (i : ℚ) ≤ (j : ℚ) := by exact_mod_cast hij
    linarith
  unfold detailProgress
  push_cast
  gcongr

theorem detailProgress_lb (m i : Nat) : 75 ≤ detailProgress (m + 1) i := by
  unfold detailProgress
  push_cast
  have h : (0 : ℚ) ≤ 10 * ((i : ℚ) + 1) / ((m : ℚ) + 1) := by positivity
  linarith

theorem detailProgress_ub (m i : Nat) (hi : i < m + 1) :
    detailProgress (m + 1) i ≤ 85 := by
  unfold detailProgress
  push_cast
  have hpos : (0 : ℚ) < (m : ℚ) + 1 := by positivity
  have h : (10 : ℚ) * ((i : ℚ) + 1) / ((m : ℚ) + 1) ≤ 10 := by
    rw [div_le_iff₀ hpos]
    have hle : (i : ℚ) + 1 ≤ (m : ℚ) + 1 := by exact_mod_cast hi
    nlinarith
  linarith

/-- C2 amended: on a successful run with n+1 sources and m+1 detail
sections the recorded progress splits into two internally non-decreasing
segments: 0..85 up to the synthesis update, then 75..100 from the first
detailed-analysis callback on (the claimed 85-95 band is actually 75-90,
and entering it drops progress from 85 to 75), while the recorded status
path is pending, analyzing, searching, fetching, synthesizing (with no
generating step) and finally completed. -/
theorem progress_trace_amended (n m : Nat) :
    (progressTrace (n + 1) (m + 1)).map Prod.snd =
      ([0, 10, 25, 50, 70]
        ++ (List.range (n + 1)).map (summarizeProgress (n + 1)) ++ [85])
      ++ ([75] ++ (List.range (m + 1)).map (detailProgress (m + 1)) ++ [90, 100]) ∧
    (([0, 10, 25, 50, 70]
        ++ (List.range (n + 1)).map (summarizeProgress (n + 1)) ++ [85]).Pairwise (· ≤ ·)) ∧
    (([75] ++ (List.range (m + 1)).map (detailProgress (m + 1)) ++ [90, 100]).Pairwise (· ≤ ·)) ∧
    (progressTrace (n + 1) (m + 1)).map Prod.fst =
      [.pending, .analyzing, .searching, .fetching]
        ++ List.replicate (n + m + 6) .synthesizing ++ [.completed] := by
  have hsnd : ∀ (k : Nat) (f : Nat → ℚ),
      (List.range k).map (Prod.snd ∘ fun i => ((RStatus.synthesizing : RStatus), f i))
        = (List.range k).map f := by
    intro k f
    rw [show (Prod.snd ∘ fun i => ((RStatus.synthesizing : RStatus), f i)) = f from rfl]
  have hfst : ∀ (k : Nat) (f : Nat → ℚ),
      (List.range k).map (Prod.fst ∘ fun i => ((RStatus.synthesizing : RStatus), f i))
        = List.replicate k RStatus.synthesizing := by
    intro k f
    rw [show (Prod.fst ∘ fun i => ((RStatus.synthesizing : RStatus), f i))
          = fun _ => RStatus.synthesizing from rfl]
    rw [List.map_const', List.length_range]
  refine ⟨?_, ?_, ?_, ?_⟩
  · simp only [progressTrace, List.map_append, List.map_map, List.map_cons,
      List.map_nil, hsnd, List.append_assoc, List.cons_append, List.nil_append]
  · rw [List.pairwise_append]
    refine ⟨?_, ?_, ?_⟩
    · rw [List.pairwise_append]
      refine ⟨by norm_num, ?_, ?_⟩
      · rw [List.pairwise_map]
        exact (List.pairwise_lt_range _).imp
          (fun h => summarizeProgress_mono n (le_of_lt h))
      · intro a ha b hb
        obtain ⟨i, hi, rfl⟩ := List.mem_map.mp hb
        have := summarizeProgress_lb n i
        fin_cases ha <;> linarith
    · exact List.pairwise_singleton _ _
    · intro a ha b hb
      rw [List.mem_singleton] at hb
      subst hb
      rcases List.mem_append.mp ha with h | h
      · fin_cases h <;> norm_num
      · obtain ⟨i, hi, rfl⟩ := List.mem_map.mp h
        exact summarizeProgress_ub n i (List.mem_range.mp hi)
  · rw [List.pairwise_append]
    refine ⟨?_, ?_, ?_⟩
    · rw [List.pairwise_append]
      refine ⟨List.pairwise_singleton _ _, ?_, ?_⟩
      · rw [List.pairwise_map]
        exact (List.pairwise_lt_range _).imp
          (fun h => detailProgress_mono m (le_of_lt h))
      · intro a ha b hb
        rw [List.mem_singleton] at ha
        subst ha
        obtain ⟨i, hi, rfl⟩ := List.mem_map.mp hb
        exact detailProgress_lb m i
    · norm_num
    · intro a ha b hb
      rcases List.mem_append.mp ha with h | h
      · rw [List.mem_singleton] at h
        subst h
        rcases List.mem_cons.mp hb with rfl | hb2
        · norm_num
        · rw [List.mem_singleton] at hb2
          subst hb2
          norm_num
      · obtain ⟨i, hi, rfl⟩ := List.mem_map.mp h
        have := detailProgress_ub m i (List.mem_range.mp hi)
        rcases List.mem_cons.mp hb with rfl | hb2
        · linarith
        · rw [List.mem_singleton] at hb2
          subst hb2
          linarith
  · have hcomm : ∀ (k : Nat) (t : List RStatus),
        List.replicate k RStatus.synthesizing ++ RStatus.synthesizing :: t
          = RStatus.synthesizing :: (List.replicate k RStatus.synthesizing ++ t) := by
      intro k
      induction k with
      | zero => intro t; rfl
      | succ k ih =>
        intro t
        simp only [List.replicate_succ, List.cons_append, ih]
    have hrw : n + m + 6 = 1 + ((n + 1) + (2 + ((m + 1) + 1))) := by omega
    rw [hrw, List.replicate_add, List.replicate_add, List.replicate_add,
      List.replicate_add]
    simp only [progressTrace, List.map_append, List.map_map, List.map_cons,
      List.map_nil, hfst, List.append_assoc, List.cons_append, List.nil_append,
      List.replicate_succ, List.replicate_zero, List.replicate_one, hcomm]

/-! ## Knowledge graph builder (services/graph_service.py) -/

/-- A graph_nodes row as seen by _build_relationships: its primary key
and its embedding vector (an empty list models a falsy/NULL embedding,
matching the Python truthiness test `if node1.embedding and node2.embedding`). -/
structure GNode where
  id : Nat
  embedding : List ℚ
deriving DecidableEq, Repr

/-- A graph_edges row restricted to the fields of the uniqueness claim. -/
structure GEdge where
  source : Nat
  target : Nat
  edgeType : String
  weight : ℚ
deriving DecidableEq, Repr

/-- Dot product, i.e. EmbeddingService.compute_similarity: embeddings are
encoded with normalize_embeddings=True, so cosine similarity is the plain
dot product np.dot(embedding1, embedding2). -/
def dotQ (xs ys : List ℚ) : ℚ := (List.zipWith (· * ·) xs ys).sum

/-- Sum of squares of a vector; sumSq v = 1 states that v is
L2-normalized. -/
def sumSq (xs : List ℚ) : ℚ := (xs.map (fun a => a * a)).sum

/-- The ordered pairs (node1, node2) visited by the double loop
`for i, node1 in enumerate(nodes): for node2 in nodes[i + 1:]` in
KnowledgeGraphService._build_relationships. -/
def pairsOf {α : Type} : List α → List (α × α)
  | [] => []
  | x :: xs => xs.map (fun y => (x, y)) ++ pairsOf xs

/-- The guard of _build_relationships: both embeddings truthy and
cosine similarity above 0.5. -/
def edgeGuard (p : GNode × GNode) : Bool :=
  decide (p.1.embedding ≠ [] ∧ p.2.embedding ≠ [] ∧
    1 / 2 < dotQ p.1.embedding p.2.embedding)

/-- KnowledgeGraphService._build_relationships (graph_service.py lines
214-231): one related_to edge per ordered node pair whose similarity
exceeds 0.5, weighted by that similarity. -/
def buildRelationships (nodes : List GNode) : List GEdge :=
  ((pairsOf nodes).filter edgeGuard).map
    (fun p => { source := p.1.id, target := p.2.id, edgeType := "related_to",
                weight := dotQ p.1.embedding p.2.embedding })

/-- The identity of an edge under the graph_edges unique constraint
UNIQUE(source_node_id, target_node_id, edge_type)
(scripts/init_graphrag_simple.py line 65). -/
def edgeKey (e : GEdge) : Nat × Nat × String := (e.source, e.target, e.edgeType)

/-- Committing a batch of pending edge inserts against the unique
constraint: if any pending key collides with a stored one or with
another pending one, the transaction fails and the store is unchanged;
otherwise all rows are appended. -/
def insertEdges (store newEdges : List GEdge) : List GEdge :=
  if ((store ++ newEdges).map edgeKey).Nodup then store ++ newEdges else store

theorem mem_pairsOf {α : Type} {p : α × α} : ∀ {l : List α},
    p ∈ pairsOf l → p.1 ∈ l ∧ p.2 ∈ l := by
  intro l
  induction l with
  | nil => simp [pairsOf]
  | cons x xs ih =>
    intro hp
    rcases List.mem_append.mp hp with h | h
    · obtain ⟨y, hy, rfl⟩ := List.mem_map.mp h
      exact ⟨List.mem_cons_self x xs, List.mem_cons_of_mem _ hy⟩
    · obtain ⟨h1, h2⟩ := ih h
      exact ⟨List.mem_cons_of_mem _ h1, List.mem_cons_of_mem _ h2⟩

theorem pairsOf_id_nodup {nodes : List GNode}
    (hids : (nodes.map GNode.id).Nodup) :
    ((pairsOf nodes).map (fun p => (p.1.id, p.2.id))).Nodup ∧
    (∀ p ∈ pairsOf nodes, p.1.id ≠ p.2.id) := by
  induction nodes with
  | nil => simp [pairsOf]
  | cons x xs ih =>
    rw [List.map_cons, List.nodup_cons] at hids
    obtain ⟨hx, hxs⟩ := hids
    obtain ⟨ihn, ihp⟩ := ih hxs
    have hxid : ∀ n ∈ xs, x.id ≠ n.id := by
      intro n hn he
      exact hx (he ▸ List.mem_map_of_mem GNode.id hn)
    constructor
    · rw [pairsOf, List.map_append, List.nodup_append]
      refine ⟨?_, ihn, ?_⟩
      · rw [List.map_map]
        have heq : ((fun p : GNode × GNode => (p.1.id, p.2.id)) ∘ fun y => (x, y))
            = (fun i => (x.id, i)) ∘ GNode.id := rfl
        rw [heq, ← List.map_map]
        refine hxs.map ?_
        intro a b hab
        simpa using hab
      · intro q hq hq2
        obtain ⟨py, hpy, rfl⟩ := List.mem_map.mp hq
        obtain ⟨y, hy, rfl⟩ := List.mem_map.mp hpy
        obtain ⟨p, hp, hpq⟩ := List.mem_map.mp hq2
        have h1 : p.1 ∈ xs := (mem_pairsOf hp).1
        have h2 : p.1.id = x.id := by simpa using congrArg Prod.fst hpq
        exact hxid p.1 h1 h2.symm
    · intro p hp
      rcases List.mem_append.mp hp with h | h
      · obtain ⟨y, hy, rfl⟩ := List.mem_map.mp h
        exact hxid y hy
      · exact ihp p h

theorem sumSq_nonneg (xs : List ℚ) : 0 ≤ sumSq xs := by
  refine List.sum_nonneg ?_
  intro a ha
  obtain ⟨b, _, rfl⟩ := List.mem_map.mp ha
  exact mul_self_nonneg b

theorem two_dot_le : ∀ (xs ys : List ℚ), 2 * dotQ xs ys ≤ sumSq xs + sumSq ys := by
  intro xs
  induction xs with
  | nil =>
    intro ys
    have h := sumSq_nonneg ys
    rw [sumSq] at h
    simp only [dotQ, sumSq, List.zipWith_nil_left, List.sum_nil, List.map_nil,
      mul_zero]
    linarith
  | cons a as ih =>
    intro ys
    cases ys with
    | nil =>
      have h := sumSq_nonneg (a :: as)
      rw [sumSq] at h
      simp only [dotQ, sumSq, List.zipWith_nil_right, List.sum_nil, List.map_nil,
        mul_zero]
      linarith
    | cons b bs =>
      have h1 := ih bs
      have h2 : 2 * (a * b) ≤ a * a + b * b := by nlinarith [sq_nonneg (a - b)]
      simp only [dotQ, sumSq, List.zipWith_cons_cons, List.map_cons,
        List.sum_cons] at h1 ⊢
      linarith

theorem dot_le_one {xs ys : List ℚ} (hx : sumSq xs = 1) (hy : sumSq ys = 1) :
    dotQ xs ys ≤ 1 := by
  have := two_dot_le xs ys
  linarith

/-- C4: within one run of _build_relationships no two edges share
(source, target, type), no edge is a self-loop, each related_to edge
weight equals the cosine similarity of its endpoints at insertion time
and lies in [0,1] (embeddings are unit-normalized), and re-running the
insert of the same edge batch against the unique-constraint store adds
no new edge. -/
theorem graph_edge_uniqueness (nodes : List GNode)
    (hids : (nodes.map GNode.id).Nodup)
    (hnorm : ∀ n ∈ nodes, n.embedding = [] ∨ sumSq n.embedding = 1) :
    ((buildRelationships nodes).map edgeKey).Nodup ∧
    (∀ e ∈ buildRelationships nodes, e.source ≠ e.target) ∧
    (∀ e ∈ buildRelationships nodes,
      0 ≤ e.weight ∧ e.weight ≤ 1 ∧ e.edgeType = "related_to" ∧
      ∃ n1 ∈ nodes, ∃ n2 ∈ nodes, e.source = n1.id ∧ e.target = n2.id ∧
        e.weight = dotQ n1.embedding n2.embedding) ∧
    insertEdges (insertEdges [] (buildRelationships nodes)) (buildRelationships nodes)
      = insertEdges [] (buildRelationships nodes) := by
  obtain ⟨hn, hloop⟩ := pairsOf_id_nodup hids
  have hfsub : ((pairsOf nodes).filter edgeGuard).Sublist (pairsOf nodes) :=
    List.filter_sublist _
  have hmemp : ∀ p ∈ (pairsOf nodes).filter edgeGuard,
      p ∈ pairsOf nodes ∧ p.1.embedding ≠ [] ∧ p.2.embedding ≠ [] ∧
        1 / 2 < dotQ p.1.embedding p.2.embedding := by
    intro p hp
    obtain ⟨hmem, hg⟩ := List.mem_filter.mp hp
    rw [edgeGuard, decide_eq_true_eq] at hg
    exact ⟨hmem, hg⟩
  refine ⟨?_, ?_, ?_, ?_⟩
  · rw [buildRelationships, List.map_map]
    have heq : (edgeKey ∘ fun p : GNode × GNode =>
        ({ source := p.1.id, target := p.2.id, edgeType := "related_to",
           weight := dotQ p.1.embedding p.2.embedding } : GEdge))
        = (fun q : Nat × Nat => (q.1, q.2, "related_to")) ∘ fun p => (p.1.id, p.2.id) :=
      rfl
    rw [heq, ← List.map_map]
    refine List.Nodup.map ?_ ?_
    · intro q1 q2 h12
      have ha : q1.1 = q2.1 := by simpa using congrArg Prod.fst h12
      have hb : q1.2 = q2.2 := by
        have := congrArg Prod.snd h12
        simpa using congrArg Prod.fst this
      exact Prod.ext ha hb
    · exact hn.sublist (hfsub.map _)
  · intro e he
    obtain ⟨p, hp, rfl⟩ := List.mem_map.mp he
    exact hloop p (hmemp p hp).1
  · intro e he
    obtain ⟨p, hp, rfl⟩ := List.mem_map.mp he
    obtain ⟨hmem, he1, he2, hgt⟩ := hmemp p hp
    obtain ⟨hm1, hm2⟩ := mem_pairsOf hmem
    have hw1 : sumSq p.1.embedding = 1 := (hnorm p.1 hm1).resolve_left he1
    have hw2 : sumSq p.2.embedding = 1 := (hnorm p.2 hm2).resolve_left he2
    refine ⟨by linarith, dot_le_one hw1 hw2, rfl, p.1, hm1, p.2, hm2, rfl, rfl, rfl⟩
  · by_cases hnil : buildRelationships nodes = []
    · rw [hnil]
      rfl
    · have hkn : ((buildRelationships nodes).map edgeKey).Nodup := by
        rw [buildRelationships, List.map_map]
        have heq : (edgeKey ∘ fun p : GNode × GNode =>
            ({ source := p.1.id, target := p.2.id, edgeType := "related_to",
               weight := dotQ p.1.embedding p.2.embedding } : GEdge))
            = (fun q : Nat × Nat => (q.1, q.2, "related_to")) ∘ fun p => (p.1.id, p.2.id) :=
          rfl
        rw [heq, ← List.map_map]
        refine List.Nodup.map ?_ (hn.sublist (hfsub.map _))
        intro q1 q2 h12
        have ha : q1.1 = q2.1 := by simpa using congrArg Prod.fst h12
        have hb : q1.2 = q2.2 := by
          have := congrArg Prod.snd h12
          simpa using congrArg Prod.fst this
        exact Prod.ext ha hb
      have hstore : insertEdges [] (buildRelationships nodes) = buildRelationships nodes := by
        rw [insertEdges, List.nil_append, if_pos hkn]
      rw [hstore, insertEdges, if_neg]
      intro hdup
      obtain ⟨e, hes⟩ := List.exists_mem_of_ne_nil _ hnil
      rw [List.map_append, List.nodup_append] at hdup
      exact hdup.2.2 (List.mem_map_of_mem edgeKey hes) (List.mem_map_of_mem edgeKey hes)

/-- Concrete two-node instance for the graph-uniqueness witness: two
unit embeddings with similarity 1 > 0.5, hence one edge. -/
def demoNodes : List GNode := [{ id := 1, embedding := [1] }, { id := 2, embedding := [1] }]

theorem graph_edge_uniqueness_witness :
    (demoNodes.map GNode.id).Nodup ∧
    (∀ n ∈ demoNodes, n.embedding = [] ∨ sumSq n.embedding = 1) ∧
    (((buildRelationships demoNodes).map edgeKey).Nodup ∧
    (∀ e ∈ buildRelationships demoNodes, e.source ≠ e.target) ∧
    (∀ e ∈ buildRelationships demoNodes,
      0 ≤ e.weight ∧ e.weight ≤ 1 ∧ e.edgeType = "related_to" ∧
      ∃ n1 ∈ demoNodes, ∃ n2 ∈ demoNodes, e.source = n1.id ∧ e.target = n2.id ∧
        e.weight = dotQ n1.embedding n2.embedding) ∧
    insertEdges (insertEdges [] (buildRelationships demoNodes)) (buildRelationships demoNodes)
      = insertEdges [] (buildRelationships demoNodes)) :=
  ⟨by decide, by intro n hn; fin_cases hn <;> norm_num [sumSq],
    graph_edge_uniqueness demoNodes (by decide)
      (by intro n hn; fin_cases hn <;> norm_num [sumSq])⟩

/-! ## Stable descending sort

Python's list.sort(key=..., reverse=True) is a stable sort: items are
ordered by descending key and items with equal keys keep their input
order.  Any two stable sorts agree extensionally, so it is embedded here
as stable insertion sort. -/

def insertDesc {α β : Type} [LinearOrder β] (key : α → β) (a : α) :
    List α → List α
  | [] => [a]
  | b :: bs => if key b ≤ key a then a :: b :: bs else b :: insertDesc key a bs

def stableSortDesc {α β : Type} [LinearOrder β] (key : α → β) : List α → List α
  | [] => []
  | a :: as => insertDesc key a (stableSortDesc key as)

theorem insertDesc_perm {α β : Type} [LinearOrder β] (key : α → β) (a : α) :
    ∀ (l : List α), (insertDesc key a l).Perm (a :: l) := by
  intro l
  induction l with
  | nil => rfl
  | cons b bs ih =>
    rw [insertDesc]
    by_cases h : key b ≤ key a
    · rw [if_pos h]
    · rw [if_neg h]
      exact (ih.cons b).trans (List.Perm.swap a b bs)

theorem stableSortDesc_perm {α β : Type} [LinearOrder β] (key : α → β) :
    ∀ (l : List α), (stableSortDesc key l).Perm l := by
  intro l
  induction l with
  | nil => rfl
  | cons a as ih =>
    rw [stableSortDesc]
    exact (insertDesc_perm key a (stableSortDesc key as)).trans (ih.cons a)

theorem mem_insertDesc {α β : Type} [LinearOrder β] {key : α → β} {a x : α}
    {l : List α} : x ∈ insertDesc key a l ↔ x = a ∨ x ∈ l :=
  ⟨fun h => List.mem_cons.mp ((insertDesc_perm key a l).mem_iff.mp h),
   fun h => (insertDesc_perm key a l).mem_iff.mpr (List.mem_cons.mpr h)⟩

theorem insertDesc_pairwise {α β : Type} [LinearOrder β] {key : α → β} (a : α)
    {l : List α} (hl : l.Pairwise (fun x y => key y ≤ key x)) :
    (insertDesc key a l).Pairwise (fun x y => key y ≤ key x) := by
  induction l with
  | nil => simp [insertDesc]
  | cons b bs ih =>
    rw [List.pairwise_cons] at hl
    obtain ⟨hb, hbs⟩ := hl
    rw [insertDesc]
    by_cases h : key b ≤ key a
    · rw [if_pos h]
      refine List.Pairwise.cons ?_ (List.Pairwise.cons hb hbs)
      intro x hx
      rcases List.mem_cons.mp hx with rfl | hx2
      · exact h
      · exact le_trans (hb x hx2) h
    · rw [if_neg h]
      refine List.Pairwise.cons ?_ (ih hbs)
      intro x hx
      rcases mem_insertDesc.mp hx with rfl | hx2
      · exact le_of_lt (lt_of_not_le h)
      · exact hb x hx2

theorem stableSortDesc_pairwise {α β : Type} [LinearOrder β] (key : α → β) :
    ∀ (l : List α), (stableSortDesc key l).Pairwise (fun x y => key y ≤ key x) := by
  intro l
  induction l with
  | nil => simp [stableSortDesc]
  | cons a as ih => exact insertDesc_pairwise a ih

/-! ## Key-based first-seen deduplication (used by the RAG merge) -/

def dedupByKey {α : Type} (key : α → String) (seen : List String) :
    List α → List α
  | [] => []
  | x :: xs =>
      if key x ∈ seen then dedupByKey key seen xs
      else x :: dedupByKey key (key x :: seen) xs

theorem mem_dedupByKey {α : Type} {key : α → String} {x : α} :
    ∀ {seen : List String} {l : List α},
    x ∈ dedupByKey key seen l → x ∈ l ∧ key x ∉ seen := by
  intro seen l
  induction l generalizing seen with
  | nil => simp [dedupByKey]
  | cons y ys ih =>
    intro hx
    rw [dedupByKey] at hx
    by_cases hy : key y ∈ seen
    · rw [if_pos hy] at hx
      obtain ⟨h1, h2⟩ := ih hx
      exact ⟨List.mem_cons_of_mem _ h1, h2⟩
    · rw [if_neg hy] at hx
      rcases List.mem_cons.mp hx with rfl | hx2
      · exact ⟨List.mem_cons_self x ys, hy⟩
      · obtain ⟨h1, h2⟩ := ih hx2
        refine ⟨List.mem_cons_of_mem _ h1, fun hm => h2 (List.mem_cons_of_mem _ hm)⟩

theorem dedupByKey_sublist {α : Type} (key : α → String) :
    ∀ (seen : List String) (l : List α), (dedupByKey key seen l).Sublist l := by
  intro seen l
  induction l generalizing seen with
  | nil => simp [dedupByKey]
  | cons y ys ih =>
    rw [dedupByKey]
    by_cases hy : key y ∈ seen
    · rw [if_pos hy]
      exact (ih seen).cons y
    · rw [if_neg hy]
      exact (ih (key y :: seen)).cons₂ y

theorem dedupByKey_pairwise_ne {α : Type} (key : α → String) :
    ∀ (seen : List String) (l : List α),
    (dedupByKey key seen l).Pairwise (fun a b => key a ≠ key b) := by
  intro seen l
  induction l generalizing seen with
  | nil => simp [dedupByKey]
  | cons y ys ih =>
    rw [dedupByKey]
    by_cases hy : key y ∈ seen
    · rw [if_pos hy]
      exact ih seen
    · rw [if_neg hy]
      refine List.Pairwise.cons ?_ (ih (key y :: seen))
      intro b hb hkey
      exact (mem_dedupByKey hb).2 (hkey ▸ List.mem_cons_self (key y) seen)

/-! ## RAG hybrid merge (services/rag_service.py) -/

/-- One retrieval result as assembled by RAGService._vector_search or
_graph_search and consumed by _combine_results: its type tag, content
text, similarity, final_score (assigned during the merge) and the id of
its source dict. -/
structure RagItem where
  rtype : String
  content : String
  similarity : ℚ
  finalScore : ℚ
  sourceId : String
deriving DecidableEq, Repr

/-- The merge assigns vector results final_score = similarity * 1.1
(rag_service.py line 220). -/
def boostVector (r : RagItem) : RagItem :=
  { r with finalScore := r.similarity * (11 / 10) }

/-- Graph results keep final_score = similarity (line 225). -/
def plainGraph (r : RagItem) : RagItem :=
  { r with finalScore := r.similarity }

/-- The deduplication key of the merge: the first 100 characters of
content (line 236). -/
def contentKey (r : RagItem) : String := r.content.take 100

/-- RAGService._combine_results (lines 209-241): score the two branches,
stable-sort descending by final_score, then de-duplicate by the
100-character content prefix keeping the first (highest ranked)
occurrence. -/
def combine_results (vector graph : List RagItem) : List RagItem :=
  dedupByKey contentKey []
    (stableSortDesc RagItem.finalScore (vector.map boostVector ++ graph.map plainGraph))

/-- The source extraction of RAGService.retrieve_context (lines 89-94):
walk combined_results[:top_k] collecting unseen source ids in order. -/
def collectSources (combined : List RagItem) (topK : Nat) : List String :=
  dedupFS [] ((combined.take topK).map RagItem.sourceId)

/-- C7: combined_results is sorted non-increasing in final_score with
vector items boosted by 1.10 and graph items unboosted, no two entries
share a 100-character content prefix, and the extracted sources are at
most top_k unique ids in combined order. -/
theorem rag_merge_invariants (vector graph : List RagItem) (topK : Nat) :
    (combine_results vector graph).Pairwise
      (fun a b => b.finalScore ≤ a.finalScore) ∧
    (combine_results vector graph).Pairwise
      (fun a b => a.content.take 100 ≠ b.content.take 100) ∧
    (∀ x ∈ combine_results vector graph,
      (∃ r ∈ vector, x = boostVector r) ∨ (∃ r ∈ graph, x = plainGraph r)) ∧
    (collectSources (combine_results vector graph) topK).length ≤ topK ∧
    (collectSources (combine_results vector graph) topK).Nodup ∧
    (collectSources (combine_results vector graph) topK).Sublist
      (((combine_results vector graph).take topK).map RagItem.sourceId) := by
  refine ⟨?_, ?_, ?_, ?_, ?_, ?_⟩
  · exact (stableSortDesc_pairwise RagItem.finalScore _).sublist
      (dedupByKey_sublist contentKey [] _)
  · exact dedupByKey_pairwise_ne contentKey [] _
  · intro x hx
    have h1 : x ∈ stableSortDesc RagItem.finalScore
        (vector.map boostVector ++ graph.map plainGraph) :=
      (dedupByKey_sublist contentKey [] _).mem hx
    have h2 : x ∈ vector.map boostVector ++ graph.map plainGraph :=
      (stableSortDesc_perm RagItem.finalScore _).mem_iff.mp h1
    rcases List.mem_append.mp h2 with h | h
    · obtain ⟨r, hr, rfl⟩ := List.mem_map.mp h
      exact Or.inl ⟨r, hr, rfl⟩
    · obtain ⟨r, hr, rfl⟩ := List.mem_map.mp h
      exact Or.inr ⟨r, hr, rfl⟩
  · calc (collectSources (combine_results vector graph) topK).length
        ≤ (((combine_results vector graph).take topK).map RagItem.sourceId).length :=
          (dedupFS_sublist [] _).length_le
      _ = ((combine_results vector graph).take topK).length := List.length_map _ _
      _ ≤ topK := List.length_take_le _ _
  · exact nodup_dedupFS [] _
  · exact dedupFS_sublist [] _

/-! ## Content prioritization (ContentFetcher.prioritize_content)

The rank analysis makes output positions explicit by tagging the input
with List.enumFrom before sorting with the same key comparisons; the
stable sort then orders tagged items by the strict lexicographic order
(key descending, input position ascending). -/

/-- The transparent quality score of prioritize_content
(content_fetcher.py lines 407-435). -/
def contentScore (c : Content) : Nat :=
  (if c.text ≠ "" then 10 else 0) +
  (if 500 < c.wordCount then 5 else 0) +
  (if 1000 < c.wordCount then 5 else 0) +
  (if c.title ≠ "" then 2 else 0) +
  (if c.method = "trafilatura" then 3
   else if c.method = "beautifulsoup" then 1 else 0) +
  (if c.error = "" then 5 else 0)

/-- ContentFetcher.prioritize_content: stable-sort the contents
descending by score (scored_contents.sort(key=lambda x: x[0],
reverse=True), Python sorts being stable) and keep the first max_items. -/
def prioritize_content (contents : List Content) (maxItems : Nat) : List Content :=
  (stableSortDesc contentScore contents).take maxItems

/-- x is placed before y by a stable descending sort: strictly higher
key, or equal keys and earlier input position (the tag). -/
def lexBefore {α : Type} (key : α → Nat) (x y : Nat × α) : Prop :=
  key y.2 < key x.2 ∨ (key x.2 = key y.2 ∧ x.1 < y.1)

instance {α : Type} (key : α → Nat) (x y : Nat × α) :
    Decidable (lexBefore key x y) :=
  inferInstanceAs (Decidable (key y.2 < key x.2 ∨ (key x.2 = key y.2 ∧ x.1 < y.1)))

theorem map_snd_insertDesc {α : Type} (key : α → Nat) (a : Nat × α) :
    ∀ (T : List (Nat × α)),
    (insertDesc (fun p => key p.2) a T).map Prod.snd
      = insertDesc key a.2 (T.map Prod.snd) := by
  intro T
  induction T with
  | nil => rfl
  | cons b bs ih =>
    by_cases h : key b.2 ≤ key a.2 <;>
      simp [insertDesc, h, ih]

theorem map_snd_stableSortDesc {α : Type} (key : α → Nat) :
    ∀ (T : List (Nat × α)),
    (stableSortDesc (fun p => key p.2) T).map Prod.snd
      = stableSortDesc key (T.map Prod.snd) := by
  intro T
  induction T with
  | nil => rfl
  | cons a as ih =>
    rw [stableSortDesc, List.map_cons, stableSortDesc, ← ih, map_snd_insertDesc]

theorem insertDesc_lex {α : Type} {key : α → Nat} {a : Nat × α} :
    ∀ {T : List (Nat × α)}, T.Pairwise (lexBefore key) →
    (∀ y ∈ T, a.1 < y.1) →
    (insertDesc (fun p => key p.2) a T).Pairwise (lexBefore key) := by
  intro T
  induction T with
  | nil =>
    intro _ _
    simp [insertDesc]
  | cons b bs ih =>
    intro hT ha
    rw [List.pairwise_cons] at hT
    obtain ⟨hb, hbs⟩ := hT
    have hab : a.1 < b.1 := ha b (List.mem_cons_self b bs)
    by_cases h : key b.2 ≤ key a.2
    · have hrw : insertDesc (fun p => key p.2) a (b :: bs) = a :: b :: bs := by
        simp [insertDesc, h]
      rw [hrw]
      refine List.Pairwise.cons ?_ (List.Pairwise.cons hb hbs)
      intro y hy
      rcases List.mem_cons.mp hy with rfl | hy2
      · rcases lt_or_eq_of_le h with hlt | heq
        · exact Or.inl hlt
        · exact Or.inr ⟨heq.symm, hab⟩
      · have hby := hb y hy2
        have hkey : key y.2 ≤ key b.2 := by
          rcases hby with h1 | ⟨h1, _⟩
          · exact le_of_lt h1
          · exact le_of_eq h1.symm
        rcases lt_or_eq_of_le (le_trans hkey h) with hlt | heq
        · exact Or.inl hlt
        · exact Or.inr ⟨heq.symm, ha y (List.mem_cons_of_mem _ hy2)⟩
    · have hrw : insertDesc (fun p => key p.2) a (b :: bs)
          = b :: insertDesc (fun p => key p.2) a bs := by
        simp [insertDesc, h]
      rw [hrw]
      refine List.Pairwise.cons ?_
        (ih hbs (fun y hy => ha y (List.mem_cons_of_mem _ hy)))
      intro y hy
      rcases mem_insertDesc.mp hy with rfl | hy2
      · exact Or.inl (lt_of_not_le h)
      · exact hb y hy2

theorem stableSortDesc_lex {α : Type} (key : α → Nat) :
    ∀ {T : List (Nat × α)}, T.Pairwise (fun x y => x.1 < y.1) →
    (stableSortDesc (fun p => key p.2) T).Pairwise (lexBefore key) := by
  intro T
  induction T with
  | nil =>
    intro _
    simp [stableSortDesc]
  | cons a as ih =>
    intro hT
    rw [List.pairwise_cons] at hT
    obtain ⟨ha, has⟩ := hT
    rw [stableSortDesc]
    refine insertDesc_lex (ih has) ?_
    intro y hy
    exact ha y ((stableSortDesc_perm (fun p => key p.2) as).mem_iff.mp hy)

theorem lexBefore_asymm {α : Type} {key : α → Nat} {x y : Nat × α}
    (h1 : lexBefore key x y) : ¬ lexBefore key y x := by
  intro h2
  simp only [lexBefore] at h1 h2
  omega

theorem indexOf_eq_countP_lex {α : Type} {key : α → Nat} :
    ∀ {L : List (Nat × α)} {e : Nat × α},
    L.Pairwise (lexBefore key) → e ∈ L →
    (∀ y ∈ L, y.1 = e.1 → y = e) →
    (L.map Prod.fst).indexOf e.1
      = L.countP (fun y => decide (lexBefore key y e)) := by
  intro L
  induction L with
  | nil =>
    intro e _ he _
    exact absurd he (List.not_mem_nil e)
  | cons b bs ih =>
    intro e hp he htag
    rw [List.pairwise_cons] at hp
    obtain ⟨hb, hbs⟩ := hp
    by_cases heb : e = b
    · subst heb
      rw [List.map_cons, List.indexOf_cons_self, List.countP_cons]
      have h0 : decide (lexBefore key e e) = false := by
        simp only [decide_eq_false_iff_not, lexBefore]
        omega
      have hz : bs.countP (fun y => decide (lexBefore key y e)) = 0 := by
        rw [List.countP_eq_zero]
        intro y hy
        simp only [decide_eq_true_eq]
        exact lexBefore_asymm (hb y hy)
      simp [hz, h0]
    · have hmem : e ∈ bs := by
        rcases List.mem_cons.mp he with rfl | h
        · exact absurd rfl heb
        · exact h
      have hne : b.1 ≠ e.1 := fun h => heb (htag b (List.mem_cons_self b bs) h).symm
      rw [List.map_cons, List.indexOf_cons_ne _ hne, List.countP_cons]
      have h1 : decide (lexBefore key b e) = true := by
        simp only [decide_eq_true_eq]
        exact hb e hmem
      have hih := ih hbs hmem (fun y hy hyt => htag y (List.mem_cons_of_mem _ hy) hyt)
      simp [h1, hih]

theorem enumFrom_tags_lt {α : Type} : ∀ (l : List α) (n : Nat),
    (List.enumFrom n l).Pairwise (fun x y => x.1 < y.1) := by
  intro l
  induction l with
  | nil =>
    intro n
    simp
  | cons a as ih =>
    intro n
    rw [List.enumFrom_cons]
    refine List.Pairwise.cons ?_ (ih (n + 1))
    intro y hy
    have := List.le_fst_of_mem_enumFrom hy
    omega

/-- The output position that the stable descending sort assigns to the
element arriving at input position p. -/
def rankOfTag {α : Type} (key : α → Nat) (l : List α) (p : Nat) : Nat :=
  ((stableSortDesc (fun q => key q.2) (List.enumFrom 0 l)).map Prod.fst).indexOf p

theorem enumFrom_zero_append_cons {α : Type} (xs ys : List α) (a : α) :
    List.enumFrom 0 (xs ++ a :: ys)
      = List.enumFrom 0 xs ++ (xs.length, a) :: List.enumFrom (xs.length + 1) ys := by
  rw [List.enumFrom_append, List.enumFrom_cons]
  simp [Nat.zero_add]

theorem rankOfTag_eq_countP {α : Type} (key : α → Nat) (xs ys : List α) (a : α) :
    rankOfTag key (xs ++ a :: ys) xs.length
      = (List.enumFrom 0 (xs ++ a :: ys)).countP
          (fun y => decide (lexBefore key y (xs.length, a))) := by
  have hsorted := stableSortDesc_lex key (enumFrom_tags_lt (xs ++ a :: ys) 0)
  have hperm := stableSortDesc_perm (fun q : Nat × α => key q.2)
    (List.enumFrom 0 (xs ++ a :: ys))
  have hmem0 : ((xs.length, a) : Nat × α) ∈ List.enumFrom 0 (xs ++ a :: ys) := by
    rw [enumFrom_zero_append_cons]
    exact List.mem_append.mpr (Or.inr (List.mem_cons_self _ _))
  have htag : ∀ y ∈ List.enumFrom 0 (xs ++ a :: ys), y.1 = xs.length →
      y = (xs.length, a) := by
    intro y hy hyt
    rw [enumFrom_zero_append_cons] at hy
    rcases List.mem_append.mp hy with h | h
    · have h1 := List.fst_lt_add_of_mem_enumFrom h
      omega
    · rcases List.mem_cons.mp h with rfl | h2
      · rfl
      · have h1 := List.le_fst_of_mem_enumFrom h2
        omega
  rw [rankOfTag, indexOf_eq_countP_lex hsorted
    (hperm.mem_iff.mpr hmem0)
    (fun y hy hyt => htag y (hperm.mem_iff.mp hy) hyt)]
  exact hperm.countP_eq _

theorem rank_mono_of_key_bump {α : Type} (key : α → Nat) (xs ys : List α)
    (a a' : α) (hkey : key a' = key a + 2) :
    rankOfTag key (xs ++ a' :: ys) xs.length
      ≤ rankOfTag key (xs ++ a :: ys) xs.length := by
  rw [rankOfTag_eq_countP, rankOfTag_eq_countP,
    enumFrom_zero_append_cons, enumFrom_zero_append_cons]
  have hpoint : ∀ (y : Nat × α), lexBefore key y (xs.length, a') →
      lexBefore key y (xs.length, a) := by
    intro y hy
    simp only [lexBefore] at hy ⊢
    omega
  have hmono1 : (List.enumFrom 0 xs).countP
        (fun y => decide (lexBefore key y (xs.length, a')))
      ≤ (List.enumFrom 0 xs).countP
        (fun y => decide (lexBefore key y (xs.length, a))) := by
    refine List.countP_mono_left ?_
    intro y _ hy
    rw [decide_eq_true_eq] at hy ⊢
    exact hpoint y hy
  have hmono2 : (List.enumFrom (xs.length + 1) ys).countP
        (fun y => decide (lexBefore key y (xs.length, a')))
      ≤ (List.enumFrom (xs.length + 1) ys).countP
        (fun y => decide (lexBefore key y (xs.length, a))) := by
    refine List.countP_mono_left ?_
    intro y _ hy
    rw [decide_eq_true_eq] at hy ⊢
    exact hpoint y hy
  have hmid1 : decide (lexBefore key ((xs.length, a') : Nat × α) (xs.length, a'))
      = false := by
    simp only [decide_eq_false_iff_not, lexBefore]
    omega
  have hmid2 : decide (lexBefore key ((xs.length, a) : Nat × α) (xs.length, a))
      = false := by
    simp only [decide_eq_false_iff_not, lexBefore]
    omega
  rw [List.countP_append, List.countP_append, List.countP_cons, List.countP_cons,
    hmid1, hmid2]
  simp only [Bool.false_eq_true, if_false]
  omega

theorem contentScore_title_bump (a : Content) (t : String)
    (ha : a.title = "") (ht : t ≠ "") :
    contentScore { a with title := t } = contentScore a + 2 := by
  simp only [contentScore, ha]
  rw [if_pos ht, if_neg (by simp : ¬("" : String) ≠ "")]
  split_ifs <;> omega

/-- C8: prioritize_content stable-sorts descending by the transparent
score and truncates to max_items; giving the item at input position
|xs| a title, all else equal, raises its score by exactly 2 and never
lowers its rank in the stable descending order (the tagged sort, whose
value projection is the untagged sort, locates the item's position). -/
theorem prioritize_monotone (xs ys : List Content) (a : Content) (t : String)
    (maxItems : Nat) (ha : a.title = "") (ht : t ≠ "") :
    (prioritize_content (xs ++ a :: ys) maxItems).Pairwise
      (fun c d => contentScore d ≤ contentScore c) ∧
    (prioritize_content (xs ++ a :: ys) maxItems).length ≤ maxItems ∧
    (stableSortDesc contentScore (xs ++ a :: ys)).Perm (xs ++ a :: ys) ∧
    prioritize_content (xs ++ a :: ys) maxItems
      = (stableSortDesc contentScore (xs ++ a :: ys)).take maxItems ∧
    (stableSortDesc (fun q => contentScore q.2)
        (List.enumFrom 0 (xs ++ a :: ys))).map Prod.snd
      = stableSortDesc contentScore (xs ++ a :: ys) ∧
    contentScore { a with title := t } = contentScore a + 2 ∧
    rankOfTag contentScore (xs ++ { a with title := t } :: ys) xs.length
      ≤ rankOfTag contentScore (xs ++ a :: ys) xs.length := by
  refine ⟨?_, ?_, ?_, rfl, ?_, contentScore_title_bump a t ha ht, ?_⟩
  · exact (stableSortDesc_pairwise contentScore _).sublist (List.take_sublist _ _)
  · exact List.length_take_le _ _
  · exact stableSortDesc_perm contentScore _
  · rw [map_snd_stableSortDesc]
    congr 1
    exact List.enumFrom_map_snd 0 _
  · exact rank_mono_of_key_bump contentScore xs ys a _
      (contentScore_title_bump a t ha ht)

/-- Concrete contents for the prioritization witness. -/
def demoUntitled : Content :=
  { url := "u0", title := "", text := "body", method := "trafilatura",
    error := "", wordCount := 600 }

def demoOther1 : Content :=
  { url := "u1", title := "T1", text := "body", method := "beautifulsoup",
    error := "", wordCount := 700 }

def demoOther2 : Content :=
  { url := "u2", title := "", text := "", method := "failed",
    error := "boom", wordCount := 0 }

theorem prioritize_monotone_witness :
    demoUntitled.title = "" ∧ ("New Title" : String) ≠ "" ∧
    ((prioritize_content ([demoOther1] ++ demoUntitled :: [demoOther2]) 3).Pairwise
      (fun c d => contentScore d ≤ contentScore c) ∧
    (prioritize_content ([demoOther1] ++ demoUntitled :: [demoOther2]) 3).length ≤ 3 ∧
    (stableSortDesc contentScore
      ([demoOther1] ++ demoUntitled :: [demoOther2])).Perm
      ([demoOther1] ++ demoUntitled :: [demoOther2]) ∧
    prioritize_content ([demoOther1] ++ demoUntitled :: [demoOther2]) 3
      = (stableSortDesc contentScore ([demoOther1] ++ demoUntitled :: [demoOther2])).take 3 ∧
    (stableSortDesc (fun q => contentScore q.2)
        (List.enumFrom 0 ([demoOther1] ++ demoUntitled :: [demoOther2]))).map Prod.snd
      = stableSortDesc contentScore ([demoOther1] ++ demoUntitled :: [demoOther2]) ∧
    contentScore { demoUntitled with title := "New Title" }
      = contentScore demoUntitled + 2 ∧
    rankOfTag contentScore
        ([demoOther1] ++ { demoUntitled with title := "New Title" } :: [demoOther2])
        [demoOther1].length
      ≤ rankOfTag contentScore ([demoOther1] ++ demoUntitled :: [demoOther2])
        [demoOther1].length) :=
  ⟨rfl, by decide,
    prioritize_monotone [demoOther1] [demoOther2] demoUntitled "New Title" 3 rfl
      (by decide)⟩

/-! ## JSON values

Python dicts of heterogeneous JSON data (the synthesis structures) are
embedded as an inductive JSON type; dict insertion order is kept. -/

inductive JValue where
  | jnull
  | jbool (b : Bool)
  | jnum (q : ℚ)
  | jstr (s : String)
  | jarr (xs : List JValue)
  | jobj (fields : List (String × JValue))

/-- Key lookup in a JSON object, first match. -/
def jlookup (fields : List (String × JValue)) (k : String) : Option JValue :=
  match fields with
  | [] => none
  | (k2, v) :: rest => if k2 = k then some v else jlookup rest k

/-- Python truthiness of a looked-up value (None, "", 0, [], {} and a
missing key are all falsy). -/
def jtruthy (v : Option JValue) : Bool :=
  match v with
  | none => false
  | some .jnull => false
  | some (.jbool b) => b
  | some (.jnum q) => decide (q ≠ 0)
  | some (.jstr s) => decide (s ≠ "")
  | some (.jarr xs) => !xs.isEmpty
  | some (.jobj fl) => !fl.isEmpty

/-- Dict assignment d[k] = v: replace in place if the key exists,
append otherwise (Python dicts keep insertion order). -/
def jset (fields : List (String × JValue)) (k : String) (v : JValue) :
    List (String × JValue) :=
  match jlookup fields k with
  | some _ => fields.map (fun p => if p.1 = k then (k, v) else p)
  | none => fields ++ [(k, v)]

theorem jlookup_map_replace {k : String} {v : JValue} :
    ∀ {f : List (String × JValue)} {w : JValue}, jlookup f k = some w →
    jlookup (f.map (fun p => if p.1 = k then (k, v) else p)) k = some v := by
  intro f
  induction f with
  | nil => intro w h; exact absurd h (by simp [jlookup])
  | cons p rest ih =>
    intro w h
    by_cases hk : p.1 = k
    · rw [List.map_cons, if_pos hk, jlookup, if_pos rfl]
    · rw [jlookup, if_neg hk] at h
      rw [List.map_cons, if_neg hk, jlookup, if_neg hk]
      exact ih h

theorem jlookup_append_right {k : String} :
    ∀ {f : List (String × JValue)} {g : List (String × JValue)},
    jlookup f k = none → jlookup (f ++ g) k = jlookup g k := by
  intro f
  induction f with
  | nil => intro g _; rfl
  | cons p rest ih =>
    intro g h
    rw [jlookup] at h
    by_cases hk : p.1 = k
    · rw [if_pos hk] at h
      exact absurd h (by simp)
    · rw [if_neg hk] at h
      rw [List.cons_append, jlookup, if_neg hk]
      exact ih h

theorem jlookup_jset_self (f : List (String × JValue)) (k : String) (v : JValue) :
    jlookup (jset f k v) k = some v := by
  rw [jset]
  cases h : jlookup f k with
  | none =>
    rw [jlookup_append_right h, jlookup, if_pos rfl]
  | some w =>
    exact jlookup_map_replace h

theorem jlookup_jset_ne (f : List (String × JValue)) (k k2 : String) (v : JValue)
    (hne : k2 ≠ k) : jlookup (jset f k v) k2 = jlookup f k2 := by
  rw [jset]
  cases h : jlookup f k with
  | none =>
    induction f with
    | nil => simp [jlookup, Ne.symm hne]
    | cons p rest ih =>
      rw [List.cons_append, jlookup, jlookup]
      by_cases hk : p.1 = k2
      · rw [if_pos hk, if_pos hk]
      · rw [if_neg hk, if_neg hk]
        rw [jlookup] at h
        by_cases hpk : p.1 = k
        · rw [if_pos hpk] at h
          exact absurd h (by simp)
        · rw [if_neg hpk] at h
          exact ih h
  | some w =>
    clear h
    induction f with
    | nil => rfl
    | cons p rest ih =>
      rw [List.map_cons, jlookup, jlookup]
      by_cases hpk : p.1 = k
      · rw [if_pos hpk]
        have h1 : ((k, v) : String × JValue).1 = k2 ↔ False := by
          simp [Ne.symm hne]
        rw [if_neg (by simpa using h1), if_neg (hpk ▸ (Ne.symm hne) : ¬ p.1 = k2)]
        exact ih
      · rw [if_neg hpk]
        by_cases hk2 : p.1 = k2
        · rw [if_pos hk2, if_pos hk2]
        · rw [if_neg hk2, if_neg hk2]
          exact ih

/-! ## Vector-search content extraction (RAGService._vector_search) -/

/-- The content field emitted for a vector hit (rag_service.py lines
153-162): start from the empty string; only when the stored
executive_summary is a dict with a "content" key is that value used;
the emitted content is its first 500 characters.  none models the
TypeError raised when a non-sliceable non-string value is sliced. -/
def vector_search_content (fields : List (String × JValue)) : Option String :=
  match jlookup fields "executive_summary" with
  | some (.jobj sfields) =>
    match jlookup sfields "content" with
    | some (.jstr c) => some (c.take 500)
    | some _ => none
    | none => some ""
  | _ => some ""

/-- The paragraph flattening of OllamaClient.synthesize_research
(ollama_client.py lines 709-716): lead_paragraph then body_paragraphs,
non-empty ones joined by blank lines. -/
def flattenParagraphs (ef : List (String × JValue)) : String :=
  let lead := match jlookup ef "lead_paragraph" with
    | some (.jstr s) => s
    | _ => ""
  let bodies := match jlookup ef "body_paragraphs" with
    | some (.jarr xs) => xs.filterMap (fun v => match v with
        | .jstr s => some s
        | _ => none)
    | _ => []
  String.intercalate "\n\n" ((lead :: bodies).filter (fun p => p ≠ ""))

/-- synthesize_research replaces a dict-shaped executive_summary by the
flattened plain string and stores the pull quote; any other shape is
left alone. -/
def flattenExecSummary (fields : List (String × JValue)) : List (String × JValue) :=
  match jlookup fields "executive_summary" with
  | some (.jobj ef) =>
      jset (jset fields "executive_summary" (.jstr (flattenParagraphs ef)))
        "pull_quote"
        (.jstr (match jlookup ef "pull_quote" with
          | some (.jstr s) => s
          | _ => ""))
  | _ => fields

/-- C10: the vector item's content is the 500-character prefix of
synthesis["executive_summary"]["content"] exactly when the stored
executive_summary is a mapping with a string "content"; any other
shape yields the empty string - in particular a synthesis that went
through the orchestrator's flattening (which turns a dict-shaped
executive_summary into a plain string) always yields empty content. -/
theorem vector_content_shape
    (f1 sfields f2 f3 ef : List (String × JValue)) (c : String) (s : String)
    (h1 : jlookup f1 "executive_summary" = some (.jobj sfields))
    (h2 : jlookup sfields "content" = some (.jstr c))
    (h3 : jlookup f2 "executive_summary" = some (.jstr s))
    (h4 : jlookup f3 "executive_summary" = some (.jobj ef)) :
    vector_search_content f1 = some (c.take 500) ∧
    vector_search_content f2 = some "" ∧
    vector_search_content (flattenExecSummary f3) = some "" := by
  refine ⟨?_, ?_, ?_⟩
  · rw [vector_search_content, h1]
    simp [h2]
  · rw [vector_search_content, h3]
  · have hflat : jlookup (flattenExecSummary f3) "executive_summary"
        = some (.jstr (flattenParagraphs ef)) := by
      rw [flattenExecSummary, h4,
        jlookup_jset_ne _ _ _ _ (by decide : ("executive_summary" : String) ≠ "pull_quote"),
        jlookup_jset_self]
    rw [vector_search_content, hflat]

/-- Concrete fields for the vector-content witness: a raw dict-shaped
summary, a flattened string summary, and a dict-shaped summary that is
then flattened. -/
def demoRawFields : List (String × JValue) :=
  [("executive_summary", .jobj [("content", .jstr "A long stored summary."),
                                ("lead_paragraph", .jstr "Lead.")])]

def demoFlatFields : List (String × JValue) :=
  [("executive_summary", .jstr "A flattened summary string.")]

theorem vector_content_shape_witness :
    jlookup demoRawFields "executive_summary"
      = some (.jobj [("content", .jstr "A long stored summary."),
                     ("lead_paragraph", .jstr "Lead.")]) ∧
    jlookup [(("content" : String), JValue.jstr "A long stored summary."),
             (("lead_paragraph" : String), JValue.jstr "Lead.")] "content"
      = some (.jstr "A long stored summary.") ∧
    jlookup demoFlatFields "executive_summary"
      = some (.jstr "A flattened summary string.") ∧
    (vector_search_content demoRawFields
      = some (("A long stored summary." : String).take 500) ∧
    vector_search_content demoFlatFields = some "" ∧
    vector_search_content (flattenExecSummary demoRawFields) = some "") :=
  ⟨rfl, rfl, rfl,
    vector_content_shape demoRawFields _ demoFlatFields demoRawFields _ _ _
      rfl rfl rfl rfl⟩

/-! ## Fallback synthesis and findings repair (orchestrator.py) -/

/-- A per-source summary record as assembled in execute_research step 4. -/
structure SourceSummary where
  url : String
  title : String
  summary : String
  wordCount : Nat
  extractionMethod : String
deriving DecidableEq, Repr

/-- The executive summary built by
ResearchOrchestrator._create_fallback_synthesis (lines 719-731). -/
def fallbackExecSummary (summaries : List SourceSummary) (query : String) : String :=
  let keyPoints := (summaries.take 5).enum.filterMap (fun p =>
    if p.2.summary ≠ "" then
      some (toString (p.1 + 1) ++ ". " ++ p.2.summary.take 200 ++ "...")
    else none)
  if summaries ≠ [] then
    "Research on '" ++ query ++ "' reveals the following key findings:\n\n"
      ++ String.intercalate "\n" keyPoints
      ++ "\n\nThis analysis is based on available sources and may be incomplete due to processing limitations."
  else
    "Unable to generate comprehensive analysis for '" ++ query
      ++ "' due to limited source availability."

/-- The three plain strings _create_fallback_synthesis stores under
key_findings (lines 736-740). -/
def fallbackKeyFindings (summaries : List SourceSummary) (query : String) :
    List JValue :=
  [.jstr ("Analysis of " ++ toString summaries.length ++ " sources related to '"
      ++ query ++ "'"),
   .jstr "Findings may be limited due to processing constraints",
   .jstr "Further research recommended for comprehensive understanding"]

/-- The single default section of the fallback detailed analysis
(lines 751-759). -/
def fallbackSections (summaries : List SourceSummary) (query : String) :
    List JValue :=
  [.jobj [("title", .jstr "Research Summary"),
          ("content", .jstr (fallbackExecSummary summaries query)),
          ("sources", .jarr ((List.range' 1 (min summaries.length 5)).map
            (fun n => .jnum n)))]]

/-- ResearchOrchestrator._create_fallback_synthesis (lines 706-763),
used verbatim when the synthesis stage times out or errors. -/
def create_fallback_synthesis (summaries : List SourceSummary) (query : String) :
    List (String × JValue) :=
  let executiveSummary := fallbackExecSummary summaries query
  [("executive_summary", .jstr executiveSummary),
   ("key_findings", .jarr (fallbackKeyFindings summaries query)),
   ("implications", .jarr [
      .jstr "Results should be verified with additional sources",
      .jstr "Professional consultation recommended for critical decisions"]),
   ("further_research", .jarr [
      .jstr ("Expand search scope for '" ++ query ++ "'"),
      .jstr "Consult domain experts",
      .jstr "Review additional academic sources"]),
   ("pull_quote", .jstr (if 150 < executiveSummary.length
      then executiveSummary.take 150 ++ "..." else executiveSummary)),
   ("detailed_analysis", .jobj [("sections",
      .jarr (fallbackSections summaries query))])]

/-- The eight fields a well-formed Finding record carries (claim shape,
also the fields filled by _validate_and_repair_synthesis). -/
def findingKeys : List String :=
  ["headline", "finding", "category", "impact_score", "confidence",
   "supporting_sources", "statistics", "keywords"]

/-- A value is shaped like a Finding record: a mapping carrying all
eight Finding fields. -/
def isFindingShape (v : JValue) : Bool :=
  match v with
  | .jobj fl => findingKeys.all (fun k => (jlookup fl k).isSome)
  | _ => false

/-- The finding generated from source i in the repair path of
_validate_and_repair_synthesis (lines 626-640). -/
def findingObj (i : Nat) (s : SourceSummary) : JValue :=
  .jobj [("headline", .jstr ("Finding from " ++ s.title.take 30)),
         ("finding", .jstr (((s.summary.splitOn ".").headD "").trim ++ ".")),
         ("category", .jstr (if i < 3 then "primary" else "secondary")),
         ("impact_score", .jnum (7 / 10 - i * (1 / 20))),
         ("confidence", .jnum (7 / 10 - i * (1 / 20))),
         ("supporting_sources", .jarr [.jnum (i + 1)]),
         ("statistics", .jobj []),
         ("keywords", .jarr [])]

/-- The padding finding appended by the while loop (lines 643-653). -/
def padObj (n : Nat) (query : String) : JValue :=
  .jobj [("headline", .jstr ("Additional Research Finding " ++ toString n)),
         ("finding", .jstr ("Analysis of source materials revealed insights related to "
            ++ query ++ ".")),
         ("category", .jstr "secondary"),
         ("impact_score", .jnum (1 / 2)),
         ("confidence", .jnum (1 / 2)),
         ("supporting_sources", .jarr [.jnum 1]),
         ("statistics", .jobj []),
         ("keywords", .jarr [])]

/-- The while loop padding new_findings up to three entries. -/
def padFindings (fs : List JValue) (query : String) : List JValue :=
  if _h : fs.length < 3 then padFindings (fs ++ [padObj (fs.length + 1) query]) query
  else fs
termination_by 3 - fs.length
decreasing_by
  simp only [List.length_append, List.length_cons, List.length_nil]
  omega

/-- The findings generated from the source summaries (lines 626-640). -/
def genFindings (summaries : List SourceSummary) : List JValue :=
  (summaries.take 6).enum.filterMap (fun p =>
    if p.2.summary ≠ "" then
      if (p.2.summary.splitOn ".").headD "" ≠ "" then some (findingObj p.1 p.2)
      else none
    else none)

/-- One default value per Finding field, as assigned by the per-finding
repair (lines 659-675). -/
def findingDefaults : List (String × JValue) :=
  [("headline", .jstr "Research Finding"),
   ("finding", .jstr "Analysis revealed relevant insights."),
   ("category", .jstr "secondary"),
   ("impact_score", .jnum (1 / 2)),
   ("confidence", .jnum (1 / 2)),
   ("supporting_sources", .jarr [.jnum 1]),
   ("statistics", .jobj []),
   ("keywords", .jarr [])]

/-- Fill one falsy or missing field with its default. -/
def ensureField (fl : List (String × JValue)) (kd : String × JValue) :
    List (String × JValue) :=
  if jtruthy (jlookup fl kd.1) then fl else jset fl kd.1 kd.2

/-- The per-finding repair: every Finding field is made present
(and truthy) by filling defaults. -/
def repairFinding (v : JValue) : JValue :=
  match v with
  | .jobj fl => .jobj (findingDefaults.foldl ensureField fl)
  | other => other

/-- The key_findings handling of _validate_and_repair_synthesis
(lines 621-675): fewer than three findings are regenerated from the
summaries and padded to at least three (capped at six); otherwise each
existing finding has its missing fields filled with defaults. -/
def repair_key_findings (findings : List JValue)
    (summaries : List SourceSummary) (query : String) : List JValue :=
  if findings.length < 3 then (padFindings (genFindings summaries) query).take 6
  else findings.map repairFinding

theorem jtruthy_isSome {o : Option JValue} (h : jtruthy o = true) :
    o.isSome = true := by
  cases o with
  | none => exact absurd h (by simp [jtruthy])
  | some v => rfl

theorem ensureField_isSome_self (fl : List (String × JValue)) (kd : String × JValue) :
    (jlookup (ensureField fl kd) kd.1).isSome = true := by
  rw [ensureField]
  by_cases h : jtruthy (jlookup fl kd.1) = true
  · rw [if_pos h]
    exact jtruthy_isSome h
  · rw [if_neg h, jlookup_jset_self]
    rfl

theorem ensureField_isSome_mono (fl : List (String × JValue)) (kd : String × JValue)
    (k : String) (h : (jlookup fl k).isSome = true) :
    (jlookup (ensureField fl kd) k).isSome = true := by
  rw [ensureField]
  by_cases ht : jtruthy (jlookup fl kd.1) = true
  · rw [if_pos ht]
    exact h
  · rw [if_neg ht]
    by_cases hk : k = kd.1
    · subst hk
      rw [jlookup_jset_self]
      rfl
    · rw [jlookup_jset_ne _ _ _ _ hk]
      exact h

theorem foldl_ensure_preserve : ∀ (ds : List (String × JValue))
    (fl : List (String × JValue)) (k : String),
    (jlookup fl k).isSome = true →
    (jlookup (ds.foldl ensureField fl) k).isSome = true := by
  intro ds
  induction ds with
  | nil => intro fl k h; exact h
  | cons d rest ih =>
    intro fl k h
    rw [List.foldl_cons]
    exact ih _ k (ensureField_isSome_mono fl d k h)

theorem foldl_ensure_isSome : ∀ (ds : List (String × JValue))
    (fl : List (String × JValue)) (kd : String × JValue), kd ∈ ds →
    (jlookup (ds.foldl ensureField fl) kd.1).isSome = true := by
  intro ds
  induction ds with
  | nil => intro fl kd h; exact absurd h (List.not_mem_nil kd)
  | cons d rest ih =>
    intro fl kd h
    rw [List.foldl_cons]
    rcases List.mem_cons.mp h with rfl | h2
    · exact foldl_ensure_preserve rest _ _ (ensureField_isSome_self fl kd)
    · exact ih _ kd h2

theorem repairFinding_shape (fl : List (String × JValue)) :
    isFindingShape (repairFinding (.jobj fl)) = true := by
  rw [repairFinding, isFindingShape]
  rw [List.all_eq_true]
  intro k hk
  have hkeys : findingKeys = findingDefaults.map Prod.fst := rfl
  rw [hkeys] at hk
  obtain ⟨kd, hkd, rfl⟩ := List.mem_map.mp hk
  exact foldl_ensure_isSome findingDefaults fl kd hkd

theorem findingObj_shape (i : Nat) (s : SourceSummary) :
    isFindingShape (findingObj i s) = true := rfl

theorem padObj_shape (n : Nat) (query : String) :
    isFindingShape (padObj n query) = true := rfl

theorem padFindings_length (query : String) : ∀ (n : Nat) (fs : List JValue),
    3 - fs.length ≤ n → 3 ≤ (padFindings fs query).length := by
  intro n
  induction n with
  | zero =>
    intro fs h
    rw [padFindings, dif_neg (by omega)]
    omega
  | succ n ih =>
    intro fs h
    by_cases hlt : fs.length < 3
    · rw [padFindings, dif_pos hlt]
      refine ih _ ?_
      simp only [List.length_append, List.length_cons, List.length_nil]
      omega
    · rw [padFindings, dif_neg hlt]
      omega

theorem padFindings_shape (query : String) : ∀ (n : Nat) (fs : List JValue),
    3 - fs.length ≤ n → (∀ f ∈ fs, isFindingShape f = true) →
    ∀ f ∈ padFindings fs query, isFindingShape f = true := by
  intro n
  induction n with
  | zero =>
    intro fs h hall
    rw [padFindings, dif_neg (by omega)]
    exact hall
  | succ n ih =>
    intro fs h hall
    by_cases hlt : fs.length < 3
    · rw [padFindings, dif_pos hlt]
      refine ih _ ?_ ?_
      · simp only [List.length_append, List.length_cons, List.length_nil]
        omega
      · intro f hf
        rcases List.mem_append.mp hf with h1 | h1
        · exact hall f h1
        · rw [List.mem_singleton] at h1
          subst h1
          exact padObj_shape _ _
    · rw [padFindings, dif_neg hlt]
      exact hall

theorem genFindings_shape (summaries : List SourceSummary) :
    ∀ f ∈ genFindings summaries, isFindingShape f = true := by
  intro f hf
  rw [genFindings] at hf
  obtain ⟨p, hp, hpf⟩ := List.mem_filterMap.mp hf
  by_cases h1 : p.2.summary ≠ ""
  · rw [if_pos h1] at hpf
    by_cases h2 : (p.2.summary.splitOn ".").headD "" ≠ ""
    · rw [if_pos h2] at hpf
      cases hpf
      exact findingObj_shape _ _
    · rw [if_neg h2] at hpf
      cases hpf
  · rw [if_neg h1] at hpf
    cases hpf

/-- C3 counterexample: on the synthesis-timeout path the stored
fallback synthesis carries exactly three key_findings entries, and none
of them is a well-formed Finding record - they are plain strings. -/
theorem fallback_key_findings_are_strings :
    (match jlookup (create_fallback_synthesis
        [{ url := "https://s1", title := "Meditation Study",
           summary := "Meditation reduces stress. It also helps focus.",
           wordCount := 500, extractionMethod := "trafilatura" }]
        "benefits of meditation") "key_findings" with
     | some (.jarr ks) =>
        decide (ks.length = 3) && ks.all (fun k => !(isFindingShape k))
     | _ => false) = true := by
  rfl

/-- C3 amended: the fallback synthesis stores an executive summary of at
least 100 characters and a single-section detailed analysis, but its
key_findings are exactly three plain strings, not Finding records; only
the validate-and-repair path guarantees at least three findings each
carrying the eight Finding fields. -/
theorem fallback_and_repair_amended (summaries : List SourceSummary)
    (query : String) (hne : summaries ≠ [])
    (findings : List JValue) (hobj : ∀ f ∈ findings, ∃ fl, f = .jobj fl) :
    jlookup (create_fallback_synthesis summaries query) "executive_summary"
      = some (.jstr (fallbackExecSummary summaries query)) ∧
    100 ≤ (fallbackExecSummary summaries query).length ∧
    jlookup (create_fallback_synthesis summaries query) "key_findings"
      = some (.jarr (fallbackKeyFindings summaries query)) ∧
    (fallbackKeyFindings summaries query).length = 3 ∧
    (∀ k ∈ fallbackKeyFindings summaries query, isFindingShape k = false) ∧
    jlookup (create_fallback_synthesis summaries query) "detailed_analysis"
      = some (.jobj [("sections", .jarr (fallbackSections summaries query))]) ∧
    (fallbackSections summaries query).length = 1 ∧
    3 ≤ (repair_key_findings findings summaries query).length ∧
    (∀ f ∈ repair_key_findings findings summaries query,
      isFindingShape f = true) := by
  refine ⟨rfl, ?_, rfl, rfl, ?_, rfl, rfl, ?_, ?_⟩
  · have hconst : 100 ≤ ("Research on '" : String).length
        + ("' reveals the following key findings:\n\n" : String).length
        + ("\n\nThis analysis is based on available sources and may be incomplete due to processing limitations." : String).length := by
      decide
    simp only [fallbackExecSummary, if_pos hne, String.length_append]
    omega
  · intro k hk
    rw [fallbackKeyFindings] at hk
    rcases List.mem_cons.mp hk with rfl | hk
    · rfl
    · rcases List.mem_cons.mp hk with rfl | hk
      · rfl
      · rw [List.mem_singleton] at hk
        subst hk
        rfl
  · rw [repair_key_findings]
    by_cases h : findings.length < 3
    · rw [if_pos h]
      have h1 := padFindings_length query (3 - (genFindings summaries).length)
        (genFindings summaries) (le_refl _)
      rw [List.length_take]
      omega
    · rw [if_neg h, List.length_map]
      omega
  · intro f hf
    rw [repair_key_findings] at hf
    by_cases h : findings.length < 3
    · rw [if_pos h] at hf
      have hmem := (List.take_sublist 6 _).mem hf
      refine padFindings_shape query (3 - (genFindings summaries).length)
        (genFindings summaries) (le_refl _) (genFindings_shape summaries) f hmem
    · rw [if_neg h] at hf
      obtain ⟨g, hg, rfl⟩ := List.mem_map.mp hf
      obtain ⟨fl, rfl⟩ := hobj g hg
      exact repairFinding_shape fl

/-- Concrete inputs for the fallback/repair witness. -/
def demoSummaries3 : List SourceSummary :=
  [{ url := "https://s1", title := "Meditation Study",
     summary := "Meditation reduces stress. It also helps focus.",
     wordCount := 500, extractionMethod := "trafilatura" },
   { url := "https://s2", title := "Health Review",
     summary := "Regular practice improves sleep quality.",
     wordCount := 300, extractionMethod := "beautifulsoup" }]

def demoFindings3 : List JValue :=
  [.jobj [("headline", .jstr "H1")],
   .jobj [],
   .jobj [("confidence", .jnum 0)]]

theorem fallback_and_repair_amended_witness :
    demoSummaries3 ≠ [] ∧
    (∀ f ∈ demoFindings3, ∃ fl, f = JValue.jobj fl) ∧
    (jlookup (create_fallback_synthesis demoSummaries3 "benefits of meditation")
        "executive_summary"
      = some (.jstr (fallbackExecSummary demoSummaries3 "benefits of meditation")) ∧
    100 ≤ (fallbackExecSummary demoSummaries3 "benefits of meditation").length ∧
    jlookup (create_fallback_synthesis demoSummaries3 "benefits of meditation")
        "key_findings"
      = some (.jarr (fallbackKeyFindings demoSummaries3 "benefits of meditation")) ∧
    (fallbackKeyFindings demoSummaries3 "benefits of meditation").length = 3 ∧
    (∀ k ∈ fallbackKeyFindings demoSummaries3 "benefits of meditation",
      isFindingShape k = false) ∧
    jlookup (create_fallback_synthesis demoSummaries3 "benefits of meditation")
        "detailed_analysis"
      = some (.jobj [("sections",
          .jarr (fallbackSections demoSummaries3 "benefits of meditation"))]) ∧
    (fallbackSections demoSummaries3 "benefits of meditation").length = 1 ∧
    3 ≤ (repair_key_findings demoFindings3 demoSummaries3
        "benefits of meditation").length ∧
    (∀ f ∈ repair_key_findings demoFindings3 demoSummaries3
        "benefits of meditation", isFindingShape f = true)) :=
  ⟨by decide,
   by
    intro f hf
    fin_cases hf
    · exact ⟨_, rfl⟩
    · exact ⟨_, rfl⟩
    · exact ⟨_, rfl⟩,
   fallback_and_repair_amended demoSummaries3 "benefits of meditation" (by decide)
     demoFindings3
     (by
      intro f hf
      fin_cases hf
      · exact ⟨_, rfl⟩
      · exact ⟨_, rfl⟩
      · exact ⟨_, rfl⟩)⟩

/-! ## Chat prompt assembly (RAGService._build_prompt and
process_chat_message) -/

/-- A combined_results entry as consumed by _build_prompt: its type,
content, and the query of its source dict ("" models an absent query). -/
structure ChatItem where
  rtype : String
  content : String
  sourceQuery : String
deriving DecidableEq, Repr

/-- A conversation history message. -/
structure ChatMsg where
  role : String
  content : String
deriving DecidableEq, Repr

/-- Python str.capitalize: first character upper-cased, the rest
lower-cased. -/
def pyCapitalize (s : String) : String :=
  match s.data with
  | [] => ""
  | c :: rest => String.mk (c.toUpper :: rest.map Char.toLower)

/-- Python l[-n:]: the last n elements. -/
def lastN {α : Type} (n : Nat) (l : List α) : List α := l.drop (l.length - n)

/-- The lines emitted for one context entry (rag_service.py lines
311-316). -/
def contextLines (idx : Nat) (r : ChatItem) : List String :=
  ["\n### Context " ++ toString idx ++ ":",
   "Type: " ++ r.rtype,
   "Content: " ++ r.content]
  ++ (if r.sourceQuery ≠ "" then ["From research: " ++ r.sourceQuery] else [])
  ++ [""]

/-- RAGService._build_prompt (lines 298-331): Relevant Context over the
top five combined results, Conversation History over the last five
messages, the Current Question and the Your Response marker, joined by
newlines; the context and history sections are emitted only when their
inputs are non-empty. -/
def build_prompt (query : String) (combined : List ChatItem)
    (history : List ChatMsg) : String :=
  let parts :=
    (if combined ≠ [] then
      "## Relevant Context:\n"
        :: ((combined.take 5).enum.map (fun p => contextLines (p.1 + 1) p.2)).flatten
     else []) ++
    (if history ≠ [] then
      ("\n## Conversation History:"
        :: (lastN 5 history).map (fun m => pyCapitalize m.role ++ ": " ++ m.content))
        ++ [""]
     else []) ++
    ["\n## Current Question:\n" ++ query, "\n## Your Response:"]
  String.intercalate "\n" parts

/-- RAGService.process_chat_message (lines 349-399): it accepts a
conversation_history argument but line 379 reassigns
conversation_history = [] before generate_response, so the prompt is
always built with an empty history. -/
def process_chat_message_prompt (message : String) (combined : List ChatItem)
    (history : List ChatMsg) : String :=
  build_prompt message combined []

/-- Naive substring test over the character list, used to evaluate the
assembled prompts. -/
def strContains (s pat : String) : Bool :=
  (List.range (s.data.length + 1)).any (fun i => pat.data.isPrefixOf (s.data.drop i))

def demoHistory9 : List ChatMsg :=
  [{ role := "user", content := "hello" },
   { role := "assistant", content := "hi there" }]

def demoItems9 : List ChatItem :=
  [{ rtype := "synthesis", content := "Stored context.",
     sourceQuery := "prior research query" }]

/-- C9: the prompt assembled for a chat message with a non-empty
supplied conversation history contains no Conversation History section
at all - process_chat_message discards the supplied history - although
_build_prompt itself would emit that section had the history been
passed through; the other fixed sections are present. -/
theorem chat_history_dropped :
    process_chat_message_prompt "What changed?" demoItems9 demoHistory9
      = build_prompt "What changed?" demoItems9 [] ∧
    demoHistory9 ≠ [] ∧
    strContains (build_prompt "What changed?" demoItems9 demoHistory9)
      "## Conversation History:" = true ∧
    strContains (process_chat_message_prompt "What changed?" demoItems9 demoHistory9)
      "## Conversation History:" = false ∧
    strContains (process_chat_message_prompt "What changed?" demoItems9 demoHistory9)
      "## Relevant Context:" = true ∧
    strContains (process_chat_message_prompt "What changed?" demoItems9 demoHistory9)
      "\n## Current Question:\nWhat changed?" = true ∧
    strContains (process_chat_message_prompt "What changed?" demoItems9 demoHistory9)
      "\n## Your Response:" = true := by
  set_option maxRecDepth 40000 in
  refine ⟨rfl, by decide, ?_, ?_, ?_, ?_, ?_⟩ <;> decide

end ResearchAgent
